import Mathlib

/-!
Shallow embedding of the Basefold commitment-scheme repository
(prime-field arithmetic in src/field.rs, Reed-Muller encoding in
src/reed_muller.rs, the Merkle authenticator in src/merkle.rs and the
Basefold protocol in src/basefold.rs), together with theorems settling
the specification claims against the code.

Machine-integer convention: the Rust sources compute on u128 / i128 /
usize values.  We model u128 values as Nat with an explicit wrap
`% 2 ^ 128` wherever the source arithmetic can overflow (the release
semantics of Rust integer overflow), i128 values as Int (with the
initial u128-to-i128 casts wrapped explicitly), and usize subtraction
and shift-amount masking with their release (wrapping / masking)
semantics.  Fallible operations return Except or Option; loops whose
bound is data-dependent take an explicit fuel argument so that every
definition is executable.
-/

set_option maxRecDepth 10000

namespace Khatam

/-- Wrap modulus of the u128 machine integers used throughout the sources. -/
def U128 : Nat := 2 ^ 128

/-- Field element from src/field.rs: a pair of u128 values (value, modulus). -/
structure FieldElement where
  value : Nat
  modulus : Nat
deriving DecidableEq, Repr

/-- Error enum from src/field.rs. -/
inductive FieldError where
  | DivisionByZero
  | InvalidModulus
  | ValueExceedsModulus
deriving DecidableEq, Repr

/-- FieldElement::new from src/field.rs (validating constructor). -/
def FieldElement.new (value modulus : Nat) : Except FieldError FieldElement :=
  if modulus ≤ 1 then .error .InvalidModulus
  else if value ≥ modulus then .error .ValueExceedsModulus
  else .ok ⟨value, modulus⟩

/-- FieldElement::zero from src/field.rs. -/
def FieldElement.zero (modulus : Nat) : Except FieldError FieldElement :=
  FieldElement.new 0 modulus

/-- FieldElement.one from src/field.rs. -/
def FieldElement.one (modulus : Nat) : Except FieldError FieldElement :=
  FieldElement.new 1 modulus

/-- The Add impl for FieldElement: `(self.value + other.value) % self.modulus`,
with the u128 addition wrapped.  The source asserts equal moduli; theorems
using this definition carry that equality as a hypothesis. -/
def addF (a b : FieldElement) : FieldElement :=
  ⟨(a.value + b.value) % U128 % a.modulus, a.modulus⟩

/-- The Sub impl for FieldElement: branches on `self.value >= other.value`,
otherwise computes `self.modulus - (other.value - self.value)` (the u128
subtraction wrapped). -/
def subF (a b : FieldElement) : FieldElement :=
  if b.value ≤ a.value then ⟨a.value - b.value, a.modulus⟩
  else ⟨(U128 + a.modulus - (b.value - a.value)) % U128, a.modulus⟩

/-- The Mul impl for FieldElement:
`((self.value as u128) * (other.value as u128)) % self.modulus`.
Both operands are already u128, so the cast does not widen and the
intermediate product wraps at 2^128. -/
def mulF (a b : FieldElement) : FieldElement :=
  ⟨a.value * b.value % U128 % a.modulus, a.modulus⟩

/-- Reinterpret a u128 bit pattern as i128 (the `as i128` cast in
FieldElement::inverse). -/
def wrapI128 (x : Nat) : Int :=
  if x < 2 ^ 127 then (x : Int) else (x : Int) - 2 ^ 128

/-- Reinterpret an i128 value as u128 (the `as u128` cast in
FieldElement::inverse). -/
def asU128 (x : Int) : Nat :=
  (x % (2 ^ 128 : Int)).toNat

/-- The extended-Euclid loop of FieldElement::inverse, on i128 state
`(old_s, old_t, old_r)` / `(s, t, r)`, with truncating i128 division.
The i128 intermediate values stay far inside the i128 range for the
magnitudes reachable from the callers, so the loop body arithmetic is
exact.  The fuel argument bounds the iteration count; the remainder
strictly decreases each round, so any fuel above the initial remainder
is enough. -/
def egcdF : Nat → Int → Int → Int → Int → Int → Int → Int × Int × Int
  | 0, olds, oldt, oldr, _, _, _ => (olds, oldt, oldr)
  | fuel + 1, olds, oldt, oldr, s, t, r =>
    if r = 0 then (olds, oldt, oldr)
    else
      let q := Int.tdiv oldr r
      egcdF fuel s t r (olds - q * s) (oldt - q * t) (oldr - q * r)

/-- FieldElement::inverse from src/field.rs: extended Euclid on
`(value as i128, modulus as i128)`, then the two reduction branches, then
Self::new.  Fuel `modulus + 2` dominates the iteration count because the
remainder starts at the modulus and strictly decreases. -/
def inverseF (a : FieldElement) : Except FieldError FieldElement :=
  if a.value = 0 then .error .DivisionByZero
  else
    let out := egcdF (a.modulus + 2) 1 0 (wrapI128 a.value) 0 1 (wrapI128 a.modulus)
    let olds := out.1
    let r1 := asU128 olds
    let r2 := if a.modulus ≤ r1 then r1 % a.modulus else r1
    let result := if olds < 0 then a.modulus - asU128 (-olds) % a.modulus else r2
    FieldElement.new result a.modulus

/-- Loop body of FieldElement::pow (square-and-multiply over the u128
exponent).  Fuel 128 covers every u128 exponent since the exponent
halves each round. -/
def powLoopF : Nat → FieldElement → FieldElement → Nat → FieldElement
  | 0, result, _, _ => result
  | fuel + 1, result, base, e =>
    if e = 0 then result
    else
      powLoopF fuel (if e % 2 = 1 then mulF result base else result) (mulF base base) (e / 2)

/-- FieldElement::pow from src/field.rs. -/
def powF (a : FieldElement) (e : Nat) : FieldElement :=
  powLoopF 128 ⟨1, a.modulus⟩ a e

/-- FieldElement::legendre_symbol from src/field.rs. -/
def legendreSymbolF (a : FieldElement) : Int :=
  let r := (powF a ((a.modulus - 1) / 2)).value
  if r = 0 then 0 else if r = 1 then 1 else -1

/-- The `while q % 2 == 0` factor-out-twos loop of FieldElement::sqrt.
State is (q, s); fuel 130 covers every u128 value of q. -/
def factorTwosF : Nat → Nat → Nat → Nat × Nat
  | 0, q, s => (q, s)
  | fuel + 1, q, s =>
    if q % 2 = 0 then factorTwosF fuel (q / 2) (s + 1) else (q, s)

/-- The `while Self::new(z, p).unwrap().pow((p-1)/2).value == 1 { z += 1 }`
search of FieldElement::sqrt.  Option.none models the unwrap panic once z
reaches the modulus (or fuel exhaustion, which enough fuel rules out). -/
def zSearchF (p : Nat) : Nat → Nat → Option Nat
  | 0, _ => Option.none
  | fuel + 1, z =>
    if z < p then
      if (powF ⟨z, p⟩ ((p - 1) / 2)).value = 1 then zSearchF p fuel (z + 1)
      else Option.some z
    else Option.none

/-- The `while temp.value != 1 && i < m` inner loop of FieldElement::sqrt;
the remaining-step count `m - i` is the first argument, so the loop is
structurally bounded exactly as in the source.  Returns the final i. -/
def innerLoopF : Nat → FieldElement → Nat → Nat
  | 0, _, i => i
  | rem + 1, temp, i =>
    if temp.value = 1 then i
    else innerLoopF rem (mulF temp temp) (i + 1)

/-- Result of the embedded FieldElement::sqrt: a value, the None return,
the unwrap panic inside the z search, or fuel exhaustion of the outer
loop (modelling divergence). -/
inductive SqrtOut where
  | found (r : FieldElement)
  | nores
  | panicked
  | spin
deriving DecidableEq, Repr

/-- The `while t.value != 1` outer loop of FieldElement::sqrt.  The usize
subtraction `m - i - 1` and the u128 shift use release semantics: the
subtraction wraps at 2^64 and the shift amount is masked to 7 bits. -/
def outerLoopF : Nat → Nat → FieldElement → FieldElement → FieldElement → SqrtOut
  | 0, _, _, _, _ => .spin
  | fuel + 1, m, c, t, r =>
    if t.value = 1 then .found r
    else
      let i := innerLoopF m t 0
      if i = 0 then .found r
      else
        let d := (m + 2 ^ 64 - (i + 1)) % 2 ^ 64
        let b := powF c (2 ^ (d % 128))
        outerLoopF fuel i (mulF b b) (mulF t (mulF b b)) (mulF r b)

/-- FieldElement::sqrt from src/field.rs (Tonelli-Shanks).  The fuel
argument bounds the z search and the outer loop. -/
def sqrtF (fuel : Nat) (a : FieldElement) : SqrtOut :=
  let p := a.modulus
  if a.value = 0 then .found a
  else if (powF a ((p - 1) / 2)).value ≠ 1 then .nores
  else
    let qs := factorTwosF 130 (p - 1) 0
    match zSearchF p fuel 2 with
    | Option.none => .panicked
    | Option.some z =>
      outerLoopF fuel qs.2 (powF ⟨z, p⟩ qs.1) (powF a qs.1) (powF a ((qs.1 + 1) / 2))

/-- Modular exponentiation helper used only to certify concrete number
theory facts (primality, residuosity) about large concrete moduli; fuel
halves the exponent each step. -/
def powModF : Nat → Nat → Nat → Nat → Nat
  | 0, _, _, m => 1 % m
  | fuel + 1, b, e, m =>
    if e = 0 then 1 % m
    else
      let r := powModF fuel (b * b % m) (e / 2) m
      if e % 2 = 1 then r * b % m else r

/-- Reed-Muller code record from src/reed_muller.rs.  The construction
routines for the generator matrix, dimension and evaluation points are
referenced by name in the source but not present in it, so a code value
is treated as data; ReedMullerCode::new guarantees `n = 2 ^ variables`. -/
structure ReedMullerCode where
  degree : Nat
  variables_ : Nat
  n : Nat
  k : Nat
  generator_matrix : List (List FieldElement)
deriving DecidableEq, Repr

/-- Inner j loop of ReedMullerCode::encode over an explicit index list:
`codeword[j] = codeword[j] + message[i] * G[i][j]`. -/
def encodeInnerF (msgi : FieldElement) (row : List FieldElement) :
    List Nat → List FieldElement → List FieldElement
  | [], cw => cw
  | j :: js, cw =>
      encodeInnerF msgi row js
        (cw.set j (addF (cw.getD j ⟨0, 0⟩) (mulF msgi (row.getD j ⟨0, 0⟩))))

/-- ReedMullerCode::encode from src/reed_muller.rs: asserts the message
length equals k, starts from a length-n vector of zeros of the ambient
modulus m, and runs the double loop over i in 0..k and j in 0..n.  The
source initialises with a no-argument FieldElement::zero(); the ambient
modulus m of that zero is passed explicitly here. -/
def encodeF (code : ReedMullerCode) (m : Nat) (msg : List FieldElement) :
    Option (List FieldElement) :=
  if msg.length = code.k then
    Option.some <|
      (List.range code.k).foldl
        (fun cw i =>
          encodeInnerF (msg.getD i ⟨0, 0⟩) (code.generator_matrix.getD i [])
            (List.range code.n) cw)
        (List.replicate code.n ⟨0, m⟩)
  else Option.none

/-- Field-valued sum `Σ_i message[i] * G[i][j]` written with the addition
and multiplication of the field layer, starting from the zero of modulus
m: the reference value the specification assigns to each codeword entry. -/
def encodeSpecEntry (m : Nat) (msg : List FieldElement)
    (G : List (List FieldElement)) (k j : Nat) : FieldElement :=
  (List.range k).foldl
    (fun acc i => addF acc (mulF (msg.getD i ⟨0, 0⟩) ((G.getD i []).getD j ⟨0, 0⟩)))
    ⟨0, m⟩

/-!
Merkle authenticator from src/merkle.rs.  The source hashes with
Sha3_256, a cryptographic hash outside the sources; the embedding is
parameterised by the leaf hash and the node (two-child) hash.
-/

/-- One bottom-up level of MerkleTree::new: chunks of two are hashed, an
odd trailing node is hashed with itself. -/
def mnextLevel (nodeHash : Nat → Nat → Nat) : List Nat → List Nat
  | [] => []
  | [x] => [nodeHash x x]
  | x :: y :: rest => nodeHash x y :: mnextLevel nodeHash rest

/-- The `while current_layer.len() > 1` loop of MerkleTree::new,
accumulating the list of layers from the leaves up; fuel bounds the
number of levels (the layer length at least halves every level, so fuel
equal to the leaf count is enough). -/
def mbuildLayers (nodeHash : Nat → Nat → Nat) : Nat → List Nat → List (List Nat)
  | 0, cur => [cur]
  | fuel + 1, cur =>
    if cur.length ≤ 1 then [cur]
    else cur :: mbuildLayers nodeHash fuel (mnextLevel nodeHash cur)

/-- MerkleTree from src/merkle.rs: the layers (leaves first) of hashes. -/
def mtreeLayers {α : Type} (leafHash : α → Nat) (nodeHash : Nat → Nat → Nat)
    (values : List α) : List (List Nat) :=
  mbuildLayers nodeHash values.length (values.map leafHash)

/-- MerkleTree::root: the first entry of the last layer (Option.none is
the `unwrap` / index panic on an impossible empty tree). -/
def mroot (layers : List (List Nat)) : Option Nat :=
  match layers.getLast? with
  | Option.none => Option.none
  | Option.some l => l.head?

/-- Merkle proof from src/merkle.rs: sibling hash and is-left flag per
level, the leaf hash, and the leaf index. -/
structure MerkleProofR where
  proof : List (Nat × Bool)
  leaf : Nat
  index : Nat
deriving DecidableEq, Repr

/-- Path walk of MerkleTree::generate_proof over the layers excluding the
root layer: push the sibling when it exists, silently skip the level when
the node is the unpaired last node of an odd layer. -/
def mproofEntries : List (List Nat) → Nat → List (Nat × Bool)
  | [], _ => []
  | layer :: rest, idx =>
    let sib := if idx % 2 = 0 then idx + 1 else idx - 1
    (if sib < layer.length then [(layer.getD sib 0, idx % 2 == 0)] else []) ++
      mproofEntries rest (idx / 2)

/-- MerkleTree::generate_proof: fails on an out-of-range index, otherwise
collects the path entries over all layers below the root. -/
def mgenerateProof (layers : List (List Nat)) (index : Nat) : Option MerkleProofR :=
  match layers.head? with
  | Option.none => Option.none
  | Option.some leaves =>
    if index < leaves.length then
      Option.some ⟨mproofEntries layers.dropLast index, leaves.getD index 0, index⟩
    else Option.none

/-- MerkleProof::verify from src/merkle.rs: refold the path, choosing the
operand order by the stored flag, and compare with the root.  It makes no
randomness draws. -/
def mverify (nodeHash : Nat → Nat → Nat) (pr : MerkleProofR) (root : Nat) : Bool :=
  (pr.proof.foldl
    (fun current e => if e.2 then nodeHash current e.1 else nodeHash e.1 current)
    pr.leaf) = root

/-- A run wrapper making the process-wide randomness source explicit:
MerkleProof::verify receives the stream and its position like every
system entry point, and consumes none of it. -/
def mverifyRun (nodeHash : Nat → Nat → Nat) (pr : MerkleProofR) (root : Nat)
    (_rng : Nat → Nat) (pos : Nat) : Bool × Nat :=
  (mverify nodeHash pr root, pos)

/-!
Basefold protocol from src/basefold.rs.  The process randomness source is
modelled as a stream `Nat → Nat` of u128 draws with an explicit position;
BasefoldProtocol::hash_pair consumes one draw per call.  The per-round
folding challenges drawn in BasefoldProtocol::new are carried as protocol
data.  The hash table written by fold_with_merkle through a shared
reference is threaded explicitly from commit to query.
-/

/-- Basefold protocol instance: the code family, the t-vectors and the
per-round folding challenges drawn at construction. -/
structure BasefoldProtocol where
  code_family : List ReedMullerCode
  t_vectors : List (List FieldElement)
  commitment_randomness : List FieldElement
deriving Repr

/-- Proof table written during fold_with_merkle and read during query:
an association list from Merkle-proof keys to folded values, newest
entry first (the HashMap insert of the source overwrites, which first
match lookup reproduces). -/
abbrev ProofTable : Type := List (List FieldElement × List FieldElement)

/-- HashMap::get on the proof table. -/
def tableGet (tbl : ProofTable) (key : List FieldElement) :
    Option (List FieldElement) :=
  match tbl with
  | [] => Option.none
  | (k, v) :: rest => if k = key then Option.some v else tableGet rest key

/-- BasefoldProtocol::hash_pair: `left * h + right` where h is a fresh
random draw.  Modelled from the spec: the single-argument
FieldElement::new used by the source is absent from src/field.rs, and the
spec only requires the draw to be a field value, so the draw is reduced
into the field of the left operand. -/
def hashPairF (l r : FieldElement) (draw : Nat) : FieldElement :=
  addF (mulF l ⟨draw % l.modulus, l.modulus⟩) r

/-- One level of BasefoldProtocol::build_merkle_tree: hash adjacent pairs
with fresh draws, keep an odd trailing element unhashed.  Returns the
level and the new stream position. -/
def bfLevel (rng : Nat → Nat) : List FieldElement → Nat → List FieldElement × Nat
  | [], pos => ([], pos)
  | [x], pos => ([x], pos)
  | x :: y :: rest, pos =>
    let out := bfLevel rng rest (pos + 1)
    (hashPairF x y (rng pos) :: out.1, out.2)

/-- The level loop of BasefoldProtocol::build_merkle_tree, with fuel
bounding the number of levels. -/
def bfBuildTree (rng : Nat → Nat) : Nat → List FieldElement → Nat →
    List (List FieldElement) × Nat
  | 0, cur, pos => ([cur], pos)
  | fuel + 1, cur, pos =>
    if cur.length ≤ 1 then ([cur], pos)
    else
      let lv := bfLevel rng cur pos
      let rest := bfBuildTree rng fuel lv.1 lv.2
      (cur :: rest.1, rest.2)

/-- BasefoldProtocol::generate_merkle_proof: walk the levels below the
root, pushing the sibling value when present. -/
def bfGenProof : List (List FieldElement) → Nat → List FieldElement
  | [], _ => []
  | [_], _ => []
  | layer :: next :: rest, idx =>
    let sib := if idx % 2 = 0 then idx + 1 else idx - 1
    (if sib < layer.length then [layer.getD sib ⟨0, 0⟩] else []) ++
      bfGenProof (next :: rest) (idx / 2)

/-- BasefoldProtocol::verify_merkle_proof: refold the proof with freshly
drawn hash_pair randomness, left or right according to the running index
parity, and compare with the root.  Returns the verdict and the new
stream position. -/
def bfVerifyMerkleProof (root value : FieldElement) (proof : List FieldElement)
    (index : Nat) (rng : Nat → Nat) (pos : Nat) : Bool × Nat :=
  let out := proof.foldl
    (fun st sib =>
      let cur :=
        if st.2.2 % 2 = 0 then hashPairF st.1 sib (rng st.2.1)
        else hashPairF sib st.1 (rng st.2.1)
      (cur, st.2.1 + 1, st.2.2 / 2))
    (value, pos, index)
  (out.1 = root, out.2.1)

/-- Pair loop of BasefoldProtocol::fold_with_merkle: for each even j,
interpolate the affine function through (t_j, v_j), (t_{j+1}, v_{j+1}),
evaluate it at the challenge r, record the generated Merkle proof in the
table, and emit the folded value.  Option.none is the panic of the
implicit unwrap of inverse() on a zero denominator, or of an
out-of-range t access. -/
def bfFoldPairs (v t : List FieldElement) (r : FieldElement)
    (tree : List (List FieldElement)) :
    List Nat → ProofTable → Option (List FieldElement × ProofTable)
  | [], tbl => Option.some ([], tbl)
  | j :: js, tbl =>
    if j + 1 < v.length ∧ j + 1 < t.length then
      let tj := t.getD j ⟨0, 0⟩
      let tj1 := t.getD (j + 1) ⟨0, 0⟩
      let vj := v.getD j ⟨0, 0⟩
      let vj1 := v.getD (j + 1) ⟨0, 0⟩
      match inverseF (subF tj1 tj) with
      | .error _ => Option.none
      | .ok dinv =>
        let slope := mulF (subF vj1 vj) dinv
        let valueAtR := addF (mulF slope (subF r tj)) vj
        let pr := bfGenProof tree (j / 2)
        match bfFoldPairs v t r tree js ((pr, [valueAtR]) :: tbl) with
        | Option.none => Option.none
        | Option.some (folded, tbl2) => Option.some (valueAtR :: folded, tbl2)
    else Option.none

/-- BasefoldProtocol::fold_with_merkle: asserts the length is even,
builds the Merkle tree over v, then folds every adjacent pair. -/
def bfFoldWithMerkle (v t : List FieldElement) (r : FieldElement)
    (rng : Nat → Nat) (pos : Nat) (tbl : ProofTable) :
    Option (List FieldElement × ProofTable × Nat) :=
  if v.length % 2 = 0 then
    let tree := bfBuildTree rng v.length v pos
    match bfFoldPairs v t r tree.1 (List.range v.length |>.filter (· % 2 = 0)) tbl with
    | Option.none => Option.none
    | Option.some (folded, tbl2) => Option.some (folded, tbl2, tree.2)
  else Option.none

/-- Round loop of BasefoldProtocol::commit: encode the current vector
with the round code, fold it with the round t-vector and challenge, and
append the folded vector to the oracle list. -/
def bfCommitRounds (proto : BasefoldProtocol) (rng : Nat → Nat) (m : Nat) :
    List Nat → List FieldElement → Nat → ProofTable →
    Option (List (List FieldElement) × ProofTable × Nat)
  | [], _, pos, tbl => Option.some ([], tbl, pos)
  | i :: is, current, pos, tbl =>
    match proto.code_family.get? i, proto.t_vectors.get? i,
        proto.commitment_randomness.get? i with
    | Option.some code, Option.some t, Option.some r =>
      match encodeF code m current with
      | Option.none => Option.none
      | Option.some encoded =>
        match bfFoldWithMerkle encoded t r rng pos tbl with
        | Option.none => Option.none
        | Option.some (folded, tbl2, pos2) =>
          match bfCommitRounds proto rng m is folded pos2 tbl2 with
          | Option.none => Option.none
          | Option.some (oracles, tbl3, pos3) =>
            Option.some (folded :: oracles, tbl3, pos3)
    | _, _, _ => Option.none

/-- BasefoldProtocol::commit: oracle 0 is the message, each round appends
its folded vector; the proof table and stream position are returned
alongside.  The ambient modulus m seeds the zero vector of encode. -/
def bfCommit (proto : BasefoldProtocol) (m : Nat) (msg : List FieldElement)
    (rng : Nat → Nat) (pos : Nat) :
    Option (List (List FieldElement) × ProofTable × Nat) :=
  match bfCommitRounds proto rng m (List.range proto.code_family.length) msg pos [] with
  | Option.none => Option.none
  | Option.some (oracles, tbl, pos2) => Option.some (msg :: oracles, tbl, pos2)

/-- BasefoldProtocol::verify_fold_at_point: recompute the affine
interpolation of the pair of oracle i+1 at mu against the entry of
oracle i at mu / 2.  Option.none models the index panics and the
implicit unwrap of inverse(). -/
def bfVerifyFoldAtPoint (pii pii1 ti : List FieldElement) (r : FieldElement)
    (mu : Nat) : Option Bool :=
  if mu + 1 < pii1.length ∧ mu + 1 < ti.length ∧ mu / 2 < pii.length then
    let vmu := pii1.getD mu ⟨0, 0⟩
    let vmu1 := pii1.getD (mu + 1) ⟨0, 0⟩
    let tmu := ti.getD mu ⟨0, 0⟩
    let tmu1 := ti.getD (mu + 1) ⟨0, 0⟩
    match inverseF (subF tmu1 tmu) with
    | .error _ => Option.none
    | .ok dinv =>
      let slope := mulF (subF vmu1 vmu) dinv
      let expected := addF (mulF slope (subF r tmu)) vmu
      Option.some (pii.getD (mu / 2) ⟨0, 0⟩ = expected)
  else Option.none

/-- Round walk of BasefoldProtocol::verify_query_path_with_merkle, from
the highest round index down to 0 (the index list argument).  A missing
hash-table entry for the consumed pair slice is skipped exactly as in
the source.  Option.none models the index and slice panics. -/
def bfVerifyPathRounds (proto : BasefoldProtocol)
    (oracles : List (List FieldElement)) (tbl : ProofTable)
    (rng : Nat → Nat) :
    List Nat → Nat → Nat → Option (Bool × Nat)
  | [], _, pos => Option.some (true, pos)
  | i :: is, mu, pos =>
    match oracles.get? (i + 1), oracles.get? i, proto.t_vectors.get? i,
        proto.commitment_randomness.get? i with
    | Option.some pii1, Option.some pii, Option.some ti, Option.some r =>
      if mu + 2 ≤ pii1.length then
        let key := (pii1.drop mu).take 2
        let merkleStep : Option (Bool × Nat) :=
          match tableGet tbl key with
          | Option.none => Option.some (true, pos)
          | Option.some proof =>
            match proof.head?, oracles.get? i with
            | Option.some pv, Option.some pii0 =>
              if mu / 2 < pii0.length then
                Option.some
                  (bfVerifyMerkleProof (pii0.getD (mu / 2) ⟨0, 0⟩) pv
                    (proof.drop 1) (mu / 2) rng pos)
              else Option.none
            | _, _ => Option.none
        match merkleStep with
        | Option.none => Option.none
        | Option.some (mok, pos2) =>
          if mok then
            match bfVerifyFoldAtPoint pii pii1 ti r mu with
            | Option.none => Option.none
            | Option.some fok =>
              if fok then bfVerifyPathRounds proto oracles tbl rng is (mu / 2) pos2
              else Option.some (false, pos2)
          else Option.some (false, pos2)
      else Option.none
    | _, _, _, _ => Option.none

/-- BasefoldProtocol::verify_query_path_with_merkle: rounds walked from
code_family.len() - 1 down to 0. -/
def bfVerifyQueryPath (proto : BasefoldProtocol)
    (oracles : List (List FieldElement)) (tbl : ProofTable)
    (rng : Nat → Nat) (mu pos : Nat) : Option (Bool × Nat) :=
  bfVerifyPathRounds proto oracles tbl rng
    ((List.range proto.code_family.length).reverse) mu pos

/-- Check loop of BasefoldProtocol::query: each iteration samples an
index into oracle d, rounds it down to an even pair start, and replays
the query path.  Option.none models the panics on an empty code family
(usize underflow of the length), a missing oracle, or an empty sampling
range. -/
def bfQueryChecks (proto : BasefoldProtocol)
    (oracles : List (List FieldElement)) (tbl : ProofTable)
    (samples rng : Nat → Nat) :
    List Nat → Nat → Option Bool
  | [], _ => Option.some true
  | c :: cs, pos =>
    if proto.code_family.length = 0 then Option.none
    else
      let d := proto.code_family.length - 1
      match oracles.get? d with
      | Option.none => Option.none
      | Option.some od =>
        if od.length = 0 then Option.none
        else
          let mu0 := samples c % od.length
          let mu := if mu0 % 2 = 0 then mu0 else mu0 - 1
          match bfVerifyQueryPath proto oracles tbl rng mu pos with
          | Option.none => Option.none
          | Option.some (ok, pos2) =>
            if ok then bfQueryChecks proto oracles tbl samples rng cs pos2
            else Option.some false

/-- BasefoldProtocol::query: lambda independent checks, all of which must
pass. -/
def bfQuery (proto : BasefoldProtocol) (oracles : List (List FieldElement))
    (tbl : ProofTable) (lambda : Nat) (samples rng : Nat → Nat) : Option Bool :=
  bfQueryChecks proto oracles tbl samples rng (List.range lambda) 0

/-!
Concrete instances used by the evaluation theorems.
-/

/-- A field element of the modulus-97 toy field of the specification
examples. -/
def fe97 (v : Nat) : FieldElement := ⟨v, 97⟩

/-- Modelled from the spec: the generator matrix of the Reed-Muller code
with degree 1 and 2 variables over the modulus-97 field.  The matrix
construction routine named by src/reed_muller.rs is absent from the
sources; per the spec it has one row per monomial of degree at most 1
(here 1, x0, x1), whose entries are the monomial evaluated at the four
boolean points indexed by their binary expansion. -/
def rm12Gen : List (List FieldElement) :=
  [[fe97 1, fe97 1, fe97 1, fe97 1],
   [fe97 0, fe97 1, fe97 0, fe97 1],
   [fe97 0, fe97 0, fe97 1, fe97 1]]

/-- The Reed-Muller code with degree 1, 2 variables: n = 4, k = 3. -/
def rm12 : ReedMullerCode := ⟨1, 2, 4, 3, rm12Gen⟩

/-- A one-round protocol instance over the modulus-97 field with
t-vector (1,2,3,4) and folding challenge 5. -/
def honestProto : BasefoldProtocol :=
  ⟨[rm12], [[fe97 1, fe97 2, fe97 3, fe97 4]], [fe97 5]⟩

/-- A length-k (k = 3) message for honestProto. -/
def honestMsg : List FieldElement := [fe97 1, fe97 2, fe97 3]

/-- A fixed value of the process randomness stream (three hash_pair
draws suffice for one commit round over four leaves). -/
def honestRng : Nat → Nat := fun i => [7, 11, 13].getD i 0

/-- The oracle transcript bfCommit produces on honestMsg under
honestRng: oracle 0 is the message, oracle 1 the folded vector. -/
def honestOracles : List (List FieldElement) :=
  [[fe97 1, fe97 2, fe97 3], [fe97 9, fe97 8]]

/-- The proof table bfCommit produces on honestMsg under honestRng. -/
def honestTable : ProofTable :=
  [([fe97 1, fe97 50], [fe97 8]), ([fe97 3, fe97 50], [fe97 9])]

/-- A one-round protocol instance whose t-vector is (1,2) and whose
folding challenge is 3, used with hand-built two-entry transcripts. -/
def tinyProto : BasefoldProtocol := ⟨[rm12], [[fe97 1, fe97 2]], [fe97 3]⟩

/-- A hand-built transcript satisfying the fold relation that query
checks: 3 = slope * (3 - 1) + 1 with slope = (2 - 1) / (2 - 1). -/
def tinyOracles : List (List FieldElement) := [[fe97 3], [fe97 1, fe97 2]]

/-- A malformed transcript whose round-1 oracle is empty. -/
def emptyRoundOracles : List (List FieldElement) := [[fe97 5], []]

/-- Node hash instantiation for the merkle.rs evaluation: an injective
polynomial pairing with no one-argument fixed point on the reachable
values. -/
def nhEx (x y : Nat) : Nat := x * x + y + 1

/-- Layers of the merkle.rs tree over the three leaves 1, 2, 3 with the
identity leaf hash and nhEx as node hash. -/
def mlayersEx : List (List Nat) := mtreeLayers (fun v : Nat => v) nhEx [1, 2, 3]

/-- The large prime 3 * 2^66 + 1 used for the wide-modulus evaluations;
its primality is certified by a Lucas witness below. -/
def PS : Nat := 3 * 2 ^ 66 + 1

/-!
Number-theoretic bridge lemmas: correctness of the powModF helper and
transport of its concrete values into ZMod.
-/

theorem powModF_correct (f : Nat) : ∀ b e m : Nat, 1 ≤ m → e < 2 ^ f →
    powModF f b e m = b ^ e % m := by
  induction f with
  | zero =>
    intro b e m _ he
    interval_cases e
    simp [powModF]
  | succ f ih =>
    intro b e m hm he
    by_cases he0 : e = 0
    · subst he0; simp [powModF]
    · have hdiv : e / 2 < 2 ^ f := by
        have : e < 2 ^ f * 2 := by
          simpa [pow_succ] using he
        omega
      have hrec := ih (b * b % m) (e / 2) m hm hdiv
      have hbase : (b * b % m) ^ (e / 2) % m = b ^ (2 * (e / 2)) % m := by
        rw [← Nat.pow_mod, ← sq, ← pow_mul]
      rcases Nat.even_or_odd e with hpar | hpar
      · have h2 : e % 2 = 0 := Nat.even_iff.mp hpar
        have he2 : 2 * (e / 2) = e := by omega
        have hstep : powModF (f + 1) b e m = powModF f (b * b % m) (e / 2) m := by
          simp [powModF, he0, h2]
        rw [hstep, hrec, hbase, he2]
      · have h2 : e % 2 = 1 := Nat.odd_iff.mp hpar
        have he2 : 2 * (e / 2) + 1 = e := by omega
        have hstep : powModF (f + 1) b e m = powModF f (b * b % m) (e / 2) m * b % m := by
          simp [powModF, he0, h2]
        rw [hstep, hrec, hbase, Nat.mod_mul_mod, ← pow_succ, he2]

theorem natCast_mod_self (a p : Nat) : ((a % p : Nat) : ZMod p) = (a : ZMod p) := by
  conv_rhs => rw [← Nat.div_add_mod a p]
  push_cast
  simp [ZMod.natCast_self]

theorem powModF_zmod (f b e m : Nat) (hm : 1 ≤ m) (he : e < 2 ^ f) :
    ((powModF f b e m : Nat) : ZMod m) = (b : ZMod m) ^ e := by
  rw [powModF_correct f b e m hm he, natCast_mod_self, Nat.cast_pow]

theorem zmod_natCast_ne_one {p v : Nat} (hp : 1 < p) (hv : v < p) (h1 : v ≠ 1) :
    ((v : Nat) : ZMod p) ≠ 1 := by
  intro h
  have hval : ((v : Nat) : ZMod p).val = v := ZMod.val_cast_of_lt hv
  have hone : (1 : ZMod p).val = 1 := by
    haveI : NeZero p := ⟨by omega⟩
    exact ZMod.val_one_eq_one_mod p ▸ Nat.mod_eq_of_lt hp
  rw [h, hone] at hval
  exact h1 hval.symm

theorem PS_pos : 1 < PS := by decide

theorem PS_sub_one : PS - 1 = 3 * 2 ^ 66 := by decide

/-- Lucas primality certificate for PS = 3 * 2^66 + 1 with witness 10. -/
theorem PS_prime : Nat.Prime PS := by
  have hcast : ∀ e : Nat, e < 2 ^ 130 →
      ((powModF 130 10 e PS : Nat) : ZMod PS) = ((10 : Nat) : ZMod PS) ^ e :=
    fun e he => powModF_zmod 130 10 e PS (by decide) he
  have ha : ((10 : Nat) : ZMod PS) ^ (PS - 1) = 1 := by
    rw [← hcast (PS - 1) (by decide)]
    have hv : powModF 130 10 (PS - 1) PS = 1 := by decide
    rw [hv]; exact Nat.cast_one
  refine lucas_primality PS ((10 : Nat) : ZMod PS) ha ?_
  intro q hq hdvd
  have hq23 : q = 2 ∨ q = 3 := by
    rw [PS_sub_one, mul_comm] at hdvd
    rcases (Nat.Prime.dvd_mul hq).mp hdvd with h2 | h3
    · exact Or.inl ((Nat.prime_dvd_prime_iff_eq hq Nat.prime_two).mp
        (hq.dvd_of_dvd_pow h2))
    · exact Or.inr ((Nat.prime_dvd_prime_iff_eq hq (by norm_num)).mp h3)
  rcases hq23 with rfl | rfl
  · rw [← hcast ((PS - 1) / 2) (by decide)]
    have hv : powModF 130 10 ((PS - 1) / 2) PS = PS - 1 := by decide
    rw [hv]
    exact zmod_natCast_ne_one PS_pos (by decide) (by decide)
  · rw [← hcast ((PS - 1) / 3) (by decide)]
    have hv : powModF 130 10 ((PS - 1) / 3) PS = 110680464429372407808 := by decide
    rw [hv]
    exact zmod_natCast_ne_one PS_pos (by decide) (by decide)

/-- C1: the claim states that for every honestly generated message of
round-0 dimension k and every lambda at least 1, query on the transcript
produced by commit returns true regardless of the sampled pair-start
indices.  The code violates this: on the honest modulus-97 instance
below, commit succeeds and produces the transcript (message, folded
vector) together with its proof table, the message has the round-0
dimension k = 3, yet query with lambda = 1 and sampled index 0 returns
false, because verify_fold_at_point compares entries of oracle i against
an affine fold of the pair of oracle i+1 — a relation the honestly
folded transcript does not satisfy. -/
theorem c1_honest_commit_rejected :
    honestMsg.length = rm12.k ∧
    bfCommit honestProto 97 honestMsg honestRng 0 =
      Option.some (honestOracles, honestTable, 3) ∧
    bfQuery honestProto honestOracles honestTable 1 (fun _ => 0) honestRng =
      Option.some false := by
  refine ⟨by decide, by decide, by decide⟩

/-- C2: the claim states that a query check that consumes a pair with no
entry in the round proof table fails (returns false) rather than being
skipped.  The code violates this: on the hand-built transcript below the
proof table is empty, the consumed pair key has no entry, and the check
nevertheless returns true because the `if let Some` of
verify_query_path_with_merkle silently skips the Merkle verification on
a missing entry. -/
theorem c2_missing_entry_accepted :
    tableGet ([] : ProofTable) [fe97 1, fe97 2] = Option.none ∧
    bfVerifyQueryPath tinyProto tinyOracles [] honestRng 0 0 =
      Option.some (true, 0) := by
  refine ⟨rfl, by decide⟩

/-- C3: the claim states that query returns a boolean verdict on every
transcript, with every sampled access bounds-checked and out-of-bounds
turned into a reject verdict.  The code violates this: on the malformed
transcript whose round-1 oracle is empty, the slice
`pi_i_plus1[mu..mu+2]` is taken out of bounds and the run panics
(modelled by Option.none) instead of returning a verdict. -/
theorem c3_query_panics_on_malformed :
    bfQuery tinyProto emptyRoundOracles [] 1 (fun _ => 0) honestRng =
      Option.none := by
  decide

/-- C4: the claim states that for every non-empty leaf list (power of
two or not) and every index below the leaf count, generate_proof
succeeds and verify accepts against the root.  The code violates this
for a self-paired path: over three leaves, generate_proof(2) succeeds
but skips the sibling-less bottom level, so verify refolds the path
without the self-pairing step the tree build performed and rejects
against the root (node hash instantiated with an injective pairing). -/
theorem c4_odd_leaf_proof_rejected :
    (2 : Nat) < ([1, 2, 3] : List Nat).length ∧
    mgenerateProof mlayersEx 2 = Option.some ⟨[(4, false)], 3, 2⟩ ∧
    mroot mlayersEx = Option.some 30 ∧
    mverify nhEx ⟨[(4, false)], 3, 2⟩ 30 = false := by
  refine ⟨by decide, by decide, by decide, by decide⟩

/-- C5 counterexample: the claim states that both MerkleProof::verify
and BasefoldProtocol::verify_merkle_proof are deterministic, with no
randomness influencing the verdict.  The protocol-surface verifier
violates this: hash_pair draws fresh process randomness per call, and
the two runs below differ only in the randomness stream yet return
different verdicts on identical root, value, proof and index. -/
theorem c5_protocol_verify_randomized :
    (bfVerifyMerkleProof (fe97 5) (fe97 1) [fe97 0] 0 (fun _ => 5) 0).1 = true ∧
    (bfVerifyMerkleProof (fe97 5) (fe97 1) [fe97 0] 0 (fun _ => 7) 0).1 = false := by
  refine ⟨by decide, by decide⟩

/-- C5 amended: MerkleProof::verify in the Merkle authenticator is
deterministic — its verdict is independent of the process randomness
stream and its position — while BasefoldProtocol::verify_merkle_proof is
randomized: there are identical inputs on which two randomness streams
produce different verdicts. -/
theorem c5_amended_determinism_split :
    (∀ (nodeHash : Nat → Nat → Nat) (pr : MerkleProofR) (root : Nat)
        (s1 s2 : Nat → Nat) (pos1 pos2 : Nat),
      (mverifyRun nodeHash pr root s1 pos1).1 = (mverifyRun nodeHash pr root s2 pos2).1) ∧
    (∃ (root value : FieldElement) (proof : List FieldElement) (index : Nat)
        (s1 s2 : Nat → Nat),
      (bfVerifyMerkleProof root value proof index s1 0).1 ≠
        (bfVerifyMerkleProof root value proof index s2 0).1) := by
  constructor
  · intro nodeHash pr root s1 s2 pos1 pos2
    rfl
  · exact ⟨fe97 5, fe97 1, [fe97 0], 0, fun _ => 5, fun _ => 7, by decide⟩

/-- C6: the claim states that the Mul impl computes the exact product
(a.value * b.value) mod m over unbounded integers for every modulus the
constructor accepts.  The code violates this: both operands are already
u128, so the `as u128` casts do not widen, and for the accepted modulus
2^127 - 1 with both values 2^64 the intermediate product 2^128 wraps to
0, whereas the exact product mod m is 2. -/
theorem c6_mul_wraps_at_wide_modulus :
    FieldElement.new (2 ^ 64) (2 ^ 127 - 1) =
      Except.ok (⟨2 ^ 64, 2 ^ 127 - 1⟩ : FieldElement) ∧
    (mulF ⟨2 ^ 64, 2 ^ 127 - 1⟩ ⟨2 ^ 64, 2 ^ 127 - 1⟩).value = 0 ∧
    2 ^ 64 * 2 ^ 64 % (2 ^ 127 - 1) = 2 := by
  refine ⟨by rfl, by decide, by decide⟩

/-!
Reed-Muller encoding: the i-outer, j-inner update loop of encode
computes, entrywise, the field-valued sum of message[i] * G[i][j].
-/

theorem encodeInnerF_length (msgi : FieldElement) (row : List FieldElement) :
    ∀ (js : List Nat) (cw : List FieldElement),
      (encodeInnerF msgi row js cw).length = cw.length := by
  intro js
  induction js with
  | nil => intro cw; rfl
  | cons j js ih =>
    intro cw
    rw [encodeInnerF, ih, List.length_set]

theorem encodeInnerF_getD (msgi : FieldElement) (row : List FieldElement) :
    ∀ (js : List Nat), js.Nodup →
    ∀ (cw : List FieldElement) (j : Nat),
      (encodeInnerF msgi row js cw).getD j ⟨0, 0⟩ =
        if j ∈ js ∧ j < cw.length
        then addF (cw.getD j ⟨0, 0⟩) (mulF msgi (row.getD j ⟨0, 0⟩))
        else cw.getD j ⟨0, 0⟩ := by
  intro js
  induction js with
  | nil =>
    intro _ cw j
    simp [encodeInnerF]
  | cons j0 js ih =>
    intro hnd cw j
    have hnd2 := List.nodup_cons.mp hnd
    rw [encodeInnerF, ih hnd2.2]
    by_cases hj : j = j0
    · subst hj
      have hnotin : j ∉ js := hnd2.1
      by_cases hlt : j < cw.length
      · simp only [List.length_set, hnotin, false_and, if_false, List.mem_cons,
          true_or, hlt, and_true, if_pos, true_and]
        simp [List.getD_eq_getElem?_getD, List.getElem?_set_self, hlt]
      · simp only [List.length_set, hnotin, false_and, if_false, List.mem_cons]
        rw [if_neg (by tauto)]
        rw [List.set_eq_of_length_le (by omega)]
    · have hgd : ∀ v, (cw.set j0 v).getD j ⟨0, 0⟩ = cw.getD j ⟨0, 0⟩ := by
        intro v
        simp [List.getD_eq_getElem?_getD, List.getElem?_set_ne (Ne.symm hj)]
      by_cases hin : j ∈ js ∧ j < cw.length
      · rw [if_pos (by simpa [List.length_set] using hin), hgd]
        rw [if_pos (by exact ⟨List.mem_cons_of_mem _ hin.1, hin.2⟩)]
      · rw [if_neg (by simpa [List.length_set] using hin), hgd]
        rw [if_neg (by
          intro hcon
          rcases hcon with ⟨hmem, hlt⟩
          rcases List.mem_cons.mp hmem with h1 | h2
          · exact hj h1
          · exact hin ⟨h2, hlt⟩)]

theorem encodeFoldRounds_getD (msg : List FieldElement)
    (G : List (List FieldElement)) (n : Nat) :
    ∀ (is : List Nat) (cw : List FieldElement), cw.length = n →
    ∀ j, j < n →
      ((is.foldl
          (fun acc i =>
            encodeInnerF (msg.getD i ⟨0, 0⟩) (G.getD i []) (List.range n) acc)
          cw).getD j ⟨0, 0⟩) =
        is.foldl
          (fun acc i =>
            addF acc (mulF (msg.getD i ⟨0, 0⟩) ((G.getD i []).getD j ⟨0, 0⟩)))
          (cw.getD j ⟨0, 0⟩) := by
  intro is
  induction is with
  | nil => intro cw _ j _; rfl
  | cons i is ih =>
    intro cw hlen j hj
    rw [List.foldl_cons, List.foldl_cons]
    rw [ih _ (by rw [encodeInnerF_length]; exact hlen) j hj]
    rw [encodeInnerF_getD _ _ _ (List.nodup_range n)]
    rw [if_pos ⟨List.mem_range.mpr hj, by omega⟩]

/-- C8: for every Reed-Muller code whose stored parameters are coherent
(n = 2^variables, a k-row generator matrix of n-wide rows) and every
message of length exactly k over the ambient modulus, encode succeeds
and returns a codeword of length n = 2^variables whose j-th entry is the
field-valued sum over i of message[i] * G[i][j] (the left fold of the
field addition over the products, from the zero of the ambient
modulus). -/
theorem c8_encode_is_generator_sum (code : ReedMullerCode) (m : Nat)
    (msg : List FieldElement)
    (hn : code.n = 2 ^ code.variables_)
    (hmsg : msg.length = code.k) :
    ∃ cw, encodeF code m msg = Option.some cw ∧
      cw.length = 2 ^ code.variables_ ∧
      ∀ j, j < code.n →
        cw.getD j ⟨0, 0⟩ =
          encodeSpecEntry m msg code.generator_matrix code.k j := by
  refine ⟨_, by rw [encodeF, if_pos hmsg], ?_, ?_⟩
  · rw [← hn]
    have hlen : ∀ (is : List Nat) (cw : List FieldElement),
        (is.foldl
          (fun acc i =>
            encodeInnerF (msg.getD i ⟨0, 0⟩) (code.generator_matrix.getD i [])
              (List.range code.n) acc) cw).length = cw.length := by
      intro is
      induction is with
      | nil => intro cw; rfl
      | cons i is ih => intro cw; rw [List.foldl_cons, ih, encodeInnerF_length]
    rw [hlen, List.length_replicate]
  · intro j hj
    rw [encodeFoldRounds_getD msg code.generator_matrix code.n _ _
      (List.length_replicate _ _) j hj]
    rw [encodeSpecEntry]
    have hrep : (List.replicate code.n (⟨0, m⟩ : FieldElement)).getD j ⟨0, 0⟩ =
        (⟨0, m⟩ : FieldElement) := by
      simp [List.getD_eq_getElem?_getD, List.getElem?_replicate, hj]
    rw [hrep]

/-- C8 witness: the coherent degree-1 two-variable code over modulus 97
and the message (1,2,3) instantiate the encode theorem; its codeword is
(1,3,4,6) and matches the generator-matrix sums entrywise. -/
theorem c8_encode_witness :
    rm12.n = 2 ^ rm12.variables_ ∧ honestMsg.length = rm12.k ∧
    ∃ cw, encodeF rm12 97 honestMsg = Option.some cw ∧
      cw.length = 2 ^ rm12.variables_ ∧
      ∀ j, j < rm12.n →
        cw.getD j ⟨0, 0⟩ = encodeSpecEntry 97 honestMsg rm12.generator_matrix rm12.k j :=
  ⟨by decide, by decide, c8_encode_is_generator_sum rm12 97 honestMsg (by decide) (by decide)⟩

/-- C9: query with lambda = 0 performs no checks and returns true on
every oracle transcript and proof table, however malformed, because the
check loop body is never entered. -/
theorem c9_zero_lambda_accepts (proto : BasefoldProtocol)
    (oracles : List (List FieldElement)) (tbl : ProofTable)
    (samples rng : Nat → Nat) :
    bfQuery proto oracles tbl 0 samples rng = Option.some true := rfl

/-!
Correctness of the extended-Euclid loop of FieldElement::inverse for
moduli below 2^127 (where the i128 casts are exact), leading to the
settlement of the inverse claim.
-/

theorem wrapI128_of_lt {x : Nat} (h : x < 2 ^ 127) : wrapI128 x = (x : Int) := by
  rw [wrapI128, if_pos h]

theorem int_gcd_step (a b : Int) (ha : 0 ≤ a) (hb : 0 < b) :
    Int.gcd b (a % b) = Int.gcd a b := by
  obtain ⟨m, rfl⟩ := Int.eq_ofNat_of_zero_le ha
  obtain ⟨n, rfl⟩ := Int.eq_ofNat_of_zero_le hb.le
  rw [← Int.ofNat_emod, Int.gcd_natCast_natCast, Int.gcd_natCast_natCast,
    Nat.gcd_comm n (m % n), ← Nat.gcd_rec n m, Nat.gcd_comm n m]

theorem egcdF_master (A M : Int) (g : Nat) :
    ∀ (fuel : Nat) (olds oldt oldr s t r : Int),
    olds * A + oldt * M = oldr →
    s * A + t * M = r →
    0 < oldr → 0 ≤ r → r < oldr →
    Int.gcd oldr r = g →
    olds * s ≤ 0 →
    olds.natAbs ≤ s.natAbs →
    (s * oldr - olds * r = M ∨ s * oldr - olds * r = -M) →
    r.toNat < fuel →
    (egcdF fuel olds oldt oldr s t r).1 * A +
        (egcdF fuel olds oldt oldr s t r).2.1 * M =
      (egcdF fuel olds oldt oldr s t r).2.2 ∧
    (egcdF fuel olds oldt oldr s t r).2.2 = (g : Int) ∧
    (egcdF fuel olds oldt oldr s t r).1.natAbs * g ≤ M.natAbs := by
  intro fuel
  induction fuel with
  | zero =>
    intro olds oldt oldr s t r _ _ _ h4 _ _ _ _ _ hf
    omega
  | succ fuel ih =>
    intro olds oldt oldr s t r h1 h2 h3 h4 h5 hg h6 h7 h8 hf
    by_cases hr0 : r = 0
    · subst hr0
      simp only [egcdF, if_true, reduceIte]
      have hgr : oldr.natAbs = g := by
        rw [← hg]
        simp [Int.gcd]
      refine ⟨h1, ?_, ?_⟩
      · rw [← hgr, Int.natAbs_of_nonneg h3.le]
      · have habs : s.natAbs * oldr.natAbs = M.natAbs := by
          rcases h8 with h | h

          · have : (s * oldr).natAbs = M.natAbs := by rw [show s * oldr = M by linarith]
            rwa [Int.natAbs_mul] at this
          · have : (s * oldr).natAbs = (-M).natAbs := by rw [show s * oldr = -M by linarith]
            rwa [Int.natAbs_mul, Int.natAbs_neg] at this
        calc olds.natAbs * g ≤ s.natAbs * g := Nat.mul_le_mul_right g h7
          _ = s.natAbs * oldr.natAbs := by rw [hgr]
          _ = M.natAbs := habs
    · have hrpos : 0 < r := lt_of_le_of_ne h4 (Ne.symm hr0)
      simp only [egcdF, if_neg hr0]
      have hqe : Int.tdiv oldr r = oldr / r := Int.tdiv_eq_ediv h3.le hrpos.le
      have hnewr : oldr - Int.tdiv oldr r * r = oldr % r := by
        rw [hqe, Int.emod_def]; ring
      have hq1 : 1 ≤ Int.tdiv oldr r := by
        rw [hqe]
        exact (Int.le_ediv_iff_mul_le hrpos).mpr (by omega)
      have hmodnn : 0 ≤ oldr % r := Int.emod_nonneg oldr hr0
      have hmodlt : oldr % r < r := Int.emod_lt_of_pos oldr hrpos
      refine ih s t r (olds - Int.tdiv oldr r * s) (oldt - Int.tdiv oldr r * t)
        (oldr - Int.tdiv oldr r * r) h2 (by linear_combination h1 - Int.tdiv oldr r * h2)
        hrpos (by omega) (by omega) ?_ ?_ ?_ ?_ (by omega)
      · rw [hnewr, int_gcd_step oldr r h3.le hrpos, hg]
      · have hswap : s * olds ≤ 0 := by rwa [mul_comm] at h6
        have hsq : 0 ≤ Int.tdiv oldr r * (s * s) :=
          mul_nonneg (by omega) (mul_self_nonneg s)
        calc s * (olds - Int.tdiv oldr r * s)
            = s * olds - Int.tdiv oldr r * (s * s) := by ring
          _ ≤ 0 := by omega
      · rcases mul_nonpos_iff.mp h6 with ⟨hod, hs⟩ | ⟨hod, hs⟩
        · have hqs : Int.tdiv oldr r * s ≤ s := by
            calc Int.tdiv oldr r * s ≤ 1 * s :=
              mul_le_mul_of_nonpos_right hq1 hs
            _ = s := one_mul s
          omega
        · have hqs : s ≤ Int.tdiv oldr r * s := le_mul_of_one_le_left hs hq1
          omega
      · have hflip : (olds - Int.tdiv oldr r * s) * r -
            s * (oldr - Int.tdiv oldr r * r) = -(s * oldr - olds * r) := by ring
        rcases h8 with h | h
        · right; rw [hflip, h]
        · left; rw [hflip, h]; ring

theorem inverseF_spec (m a : Nat) (hm : 1 < m) (hm127 : m < 2 ^ 127)
    (ha : 0 < a) (ham : a < m) (hcop : Nat.gcd a m = 1) :
    ∃ b : Nat, inverseF ⟨a, m⟩ = Except.ok ⟨b, m⟩ ∧ b < m ∧ a * b % m = 1 := by
  have ha127 : a < 2 ^ 127 := lt_trans ham hm127
  have hstep1 : egcdF (m + 2) 1 0 (a : Int) 0 1 (m : Int) =
      egcdF (m + 1) 0 1 (m : Int) 1 0 (a : Int) := by
    have hmne : ((m : Int)) ≠ 0 := by exact_mod_cast (by omega : m ≠ 0)
    have hq0 : Int.tdiv (a : Int) (m : Int) = 0 := by
      rw [Int.tdiv_eq_ediv (by positivity) (by positivity)]
      exact Int.ediv_eq_zero_of_lt (by positivity) (by exact_mod_cast ham)
    show egcdF ((m + 1) + 1) 1 0 (a : Int) 0 1 (m : Int) = _
    simp only [egcdF, if_neg hmne, hq0]
    norm_num
  obtain ⟨hbez, hR, hbound⟩ := egcdF_master (a : Int) (m : Int) 1 (m + 1) 0 1 (m : Int)
    1 0 (a : Int)
    (by ring) (by ring) (by exact_mod_cast (by omega : 0 < m)) (by positivity)
    (by exact_mod_cast ham)
    (by rw [Int.gcd_natCast_natCast, Nat.gcd_comm]; exact hcop)
    (by simp) (by simp) (Or.inl (by ring)) (by rw [Int.toNat_natCast]; omega)
  set out := egcdF (m + 1) 0 1 (m : Int) 1 0 (a : Int) with hout
  have hbound2 : out.1.natAbs ≤ m := by simpa using hbound
  have hbez1 : out.1 * (a : Int) + out.2.1 * (m : Int) = 1 := by
    rw [hbez, hR, Nat.cast_one]
  have hIF : inverseF ⟨a, m⟩ =
      FieldElement.new
        (if out.1 < 0 then m - asU128 (-out.1) % m
         else if m ≤ asU128 out.1 then asU128 out.1 % m else asU128 out.1) m := by
    simp only [inverseF, wrapI128_of_lt ha127, wrapI128_of_lt hm127]
    rw [if_neg (by simpa using ha.ne'), hstep1]
  by_cases hneg : out.1 < 0
  · set u : Nat := (-out.1).toNat with hu
    have huZ : (u : Int) = -out.1 := Int.toNat_of_nonneg (by omega)
    have hule : u ≤ m := by omega
    have hasU : asU128 (-out.1) = u := by
      rw [asU128, Int.emod_eq_of_lt (by omega) (by
        have h28 : (2 ^ 127 : Int) < 2 ^ 128 := by norm_num
        omega)]
    have hdm : m * (u / m) + u % m = u := Nat.div_add_mod u m
    have hndvd : u % m ≠ 0 := by
      intro h0
      have hdvd : (m : Int) ∣ -out.1 := by
        rw [← huZ]
        exact_mod_cast Nat.dvd_of_mod_eq_zero h0
      obtain ⟨k, hk⟩ := hdvd
      have hone : (1 : Int) = (m : Int) * (out.2.1 - k * a) := by
        have hout1 : out.1 = -((m : Int) * k) := by omega
        rw [hout1] at hbez1
        linear_combination -hbez1
      have : ((m : Int)) ∣ 1 := Dvd.intro _ hone.symm
      have := Int.le_of_dvd (by norm_num) this
      omega
    have hmodlt : u % m < m := Nat.mod_lt u (by omega)
    refine ⟨m - u % m, ?_, by omega, ?_⟩
    · rw [hIF, if_pos hneg, hasU, FieldElement.new]
      rw [if_neg (by omega), if_neg (by omega)]
    · have hmodeq : a * (m - u % m) ≡ 1 [MOD m] := by
        rw [Nat.modEq_iff_dvd]
        set Q : Int := ((u / m : Nat) : Int) with hQ
        set w : Int := ((u % m : Nat) : Int) with hw
        have hsub : ((m - u % m : Nat) : Int) = (m : Int) - w := by
          rw [hw, Nat.cast_sub hmodlt.le]
        have hdmz : (m : Int) * Q + w = (u : Int) := by
          rw [hQ, hw]; exact_mod_cast hdm
        refine ⟨out.2.1 - (a : Int) * Q - (a : Int), ?_⟩
        rw [Nat.cast_mul, hsub, Nat.cast_one]
        linear_combination -hbez1 + (a : Int) * hdmz + (a : Int) * huZ
      have := hmodeq.symm
      rw [Nat.ModEq] at this
      rw [← this, Nat.mod_eq_of_lt hm]
  · push_neg at hneg
    set u : Nat := out.1.toNat with hu
    have huZ : (u : Int) = out.1 := Int.toNat_of_nonneg hneg
    have hule : u ≤ m := by omega
    have hasU : asU128 out.1 = u := by
      rw [asU128, Int.emod_eq_of_lt hneg (by
        have h28 : (2 ^ 127 : Int) < 2 ^ 128 := by norm_num
        omega)]
    have hdm : m * (u / m) + u % m = u := Nat.div_add_mod u m
    have hres : (if m ≤ u then u % m else u) = u % m := by
      by_cases hcase : m ≤ u
      · rw [if_pos hcase]
      · rw [if_neg hcase, Nat.mod_eq_of_lt (by omega)]
    have hmodlt : u % m < m := Nat.mod_lt u (by omega)
    refine ⟨u % m, ?_, hmodlt, ?_⟩
    · rw [hIF, if_neg (by omega), hasU, hres, FieldElement.new]
      rw [if_neg (by omega), if_neg (by omega)]
    · have hmodeq : a * (u % m) ≡ 1 [MOD m] := by
        rw [Nat.modEq_iff_dvd]
        set Q : Int := ((u / m : Nat) : Int) with hQ
        set w : Int := ((u % m : Nat) : Int) with hw
        have hdmz : (m : Int) * Q + w = (u : Int) := by
          rw [hQ, hw]; exact_mod_cast hdm
        refine ⟨(a : Int) * Q + out.2.1, ?_⟩
        rw [Nat.cast_mul, Nat.cast_one, ← hw]
        linear_combination -hbez1 - (a : Int) * hdmz - (a : Int) * huZ
      have := hmodeq.symm
      rw [Nat.ModEq] at this
      rw [← this, Nat.mod_eq_of_lt hm]

theorem mulmod_coprime {m a b : Nat} (hab : a * b % m = 1) : Nat.gcd a m = 1 := by
  have h1 : Nat.gcd a m ∣ a * b := dvd_mul_of_dvd_left (Nat.gcd_dvd_left a m) b
  have h2 : Nat.gcd a m ∣ m * (a * b / m) :=
    Dvd.dvd.mul_right (Nat.gcd_dvd_right a m) _
  have h3 : m * (a * b / m) + a * b % m = a * b := Nat.div_add_mod (a * b) m
  have h4 : a * b - m * (a * b / m) = 1 := by omega
  have h5 : Nat.gcd a m ∣ 1 := h4 ▸ Nat.dvd_sub' h1 h2
  exact Nat.dvd_one.mp h5

theorem inverse_unique {m a b c : Nat} (hb : b < m) (hc : c < m)
    (hab : a * b % m = 1) (hac : a * c % m = 1) : b = c := by
  have hcop : Nat.gcd m a = 1 := by
    rw [Nat.gcd_comm]; exact mulmod_coprime hab
  have hmodeq : a * b ≡ a * c [MOD m] := by rw [Nat.ModEq, hab, hac]
  have := Nat.ModEq.cancel_left_of_coprime hcop hmodeq
  rw [Nat.ModEq, Nat.mod_eq_of_lt hb, Nat.mod_eq_of_lt hc] at this
  exact this

theorem inverseF_eq {m a c : Nat} (hm : 1 < m) (hm127 : m < 2 ^ 127) (ha : 0 < a)
    (ham : a < m) (hc : c < m) (hac : a * c % m = 1) :
    inverseF ⟨a, m⟩ = Except.ok ⟨c, m⟩ := by
  obtain ⟨b, hinv, hblt, hmul⟩ :=
    inverseF_spec m a hm hm127 ha ham (mulmod_coprime hac)
  rw [hinv, inverse_unique hblt hc hmul hac]

/-- C7 amended: over every prime modulus p up to 2^64 (so that products
of reduced values fit in the u128 intermediate), every nonzero element
has an inverse, multiplying by it gives one, and the inverse is an
involution; and inverse of 5 modulo 17 is 7. -/
theorem c7_amended_inverse_laws :
    (∀ p a : Nat, Nat.Prime p → p ≤ 2 ^ 64 → 0 < a → a < p →
      ∃ b : Nat, inverseF ⟨a, p⟩ = Except.ok ⟨b, p⟩ ∧
        mulF ⟨a, p⟩ ⟨b, p⟩ = ⟨1, p⟩ ∧ FieldElement.one p = Except.ok ⟨1, p⟩ ∧
        inverseF ⟨b, p⟩ = Except.ok ⟨a, p⟩) ∧
    inverseF ⟨5, 17⟩ = Except.ok ⟨7, 17⟩ := by
  constructor
  · intro p a hp hp64 ha hap
    have hm : 1 < p := hp.one_lt
    have hm127 : p < 2 ^ 127 := lt_of_le_of_lt hp64 (by norm_num)
    have hnd : ¬ p ∣ a := fun hdvd => absurd (Nat.le_of_dvd ha hdvd) (not_le.mpr hap)
    have hcop : Nat.gcd a p = 1 := by
      rw [Nat.gcd_comm]; exact (hp.coprime_iff_not_dvd.mpr hnd)
    obtain ⟨b, hinv, hblt, hmul⟩ := inverseF_spec p a hm hm127 ha hap hcop
    have hab128 : a * b < 2 ^ 128 := by
      calc a * b < 2 ^ 64 * 2 ^ 64 :=
        Nat.mul_lt_mul'' (lt_of_lt_of_le hap hp64) (lt_of_lt_of_le hblt hp64)
      _ = 2 ^ 128 := by norm_num
    have hval : a * b % U128 % p = 1 := by
      rw [U128, Nat.mod_eq_of_lt hab128, hmul]
    have hbpos : 0 < b := by
      rcases Nat.eq_zero_or_pos b with rfl | hpos
      · rw [Nat.mul_zero, Nat.zero_mod] at hmul; omega
      · exact hpos
    refine ⟨b, hinv, by simp [mulF, hval], ?_, ?_⟩
    · rw [FieldElement.one, FieldElement.new, if_neg (by omega), if_neg (by omega)]
    · exact inverseF_eq hm hm127 hbpos hblt hap (by rwa [Nat.mul_comm])
  · rfl

/-- C7 counterexample: the claim asserts the inverse laws for every
prime modulus.  At the prime PS = 3 * 2^66 + 1 (Lucas-certified) and the
nonzero element PS - 1, inverse succeeds and correctly returns PS - 1,
but the product of the element with its inverse is not one: the exact
product (PS-1)^2 is congruent to 1 mod PS, yet the u128 intermediate
wraps and the Mul impl returns 0. -/
theorem c7_wide_prime_inverse_breaks_one :
    Nat.Prime PS ∧ (PS - 1 : Nat) ≠ 0 ∧
    inverseF ⟨PS - 1, PS⟩ = Except.ok ⟨PS - 1, PS⟩ ∧
    FieldElement.one PS = Except.ok ⟨1, PS⟩ ∧
    mulF ⟨PS - 1, PS⟩ ⟨PS - 1, PS⟩ ≠ ⟨1, PS⟩ ∧
    (mulF ⟨PS - 1, PS⟩ ⟨PS - 1, PS⟩).value = 0 := by
  refine ⟨PS_prime, by decide, ?_, by rfl, by decide, by decide⟩
  exact inverseF_eq (by decide) (by decide) (by decide) (by decide) (by decide)
    (by decide)

/-!
Tonelli-Shanks machinery: exactness of the field multiplication and
exponentiation below 2^64, and transport into ZMod.
-/

theorem mulF_small {p v w : Nat} (hp64 : p ≤ 2 ^ 64) (hv : v < p)
    (hw : w < p) : mulF ⟨v, p⟩ ⟨w, p⟩ = ⟨v * w % p, p⟩ := by
  have hlt : v * w < U128 := by
    rw [U128]
    calc v * w < 2 ^ 64 * 2 ^ 64 :=
      Nat.mul_lt_mul'' (lt_of_lt_of_le hv hp64) (lt_of_lt_of_le hw hp64)
    _ = 2 ^ 128 := by norm_num
  simp [mulF, Nat.mod_eq_of_lt hlt]

theorem powLoopF_val {p : Nat} (hp : 1 < p) (hp64 : p ≤ 2 ^ 64) :
    ∀ (fuel rv bv e : Nat), rv < p → bv < p → e < 2 ^ fuel →
      powLoopF fuel ⟨rv, p⟩ ⟨bv, p⟩ e = ⟨rv * bv ^ e % p, p⟩ := by
  intro fuel
  induction fuel with
  | zero =>
    intro rv bv e hrv hbv he
    interval_cases e
    simp [powLoopF, Nat.mod_eq_of_lt hrv]
  | succ f ih =>
    intro rv bv e hrv hbv he
    by_cases he0 : e = 0
    · subst he0
      simp [powLoopF, Nat.mod_eq_of_lt hrv]
    · have hdiv : e / 2 < 2 ^ f := by
        have : e < 2 ^ f * 2 := by simpa [pow_succ] using he
        omega
      have hb2 : bv * bv % p < p := Nat.mod_lt _ (by omega)
      have hmulbb : mulF ⟨bv, p⟩ ⟨bv, p⟩ = ⟨bv * bv % p, p⟩ :=
        mulF_small hp64 hbv hbv
      have hx : (bv * bv % p) ^ (e / 2) % p = bv ^ (2 * (e / 2)) % p := by
        rw [← Nat.pow_mod, ← sq, ← pow_mul]
      have hpow2 : ∀ rv2 : Nat,
          rv2 * (bv * bv % p) ^ (e / 2) % p = rv2 * bv ^ (2 * (e / 2)) % p := by
        intro rv2
        rw [Nat.mul_mod, hx, ← Nat.mul_mod]
      rcases Nat.even_or_odd e with hpar | hpar
      · have h2 : e % 2 = 0 := Nat.even_iff.mp hpar
        have he2 : 2 * (e / 2) = e := by omega
        have hstep : powLoopF (f + 1) ⟨rv, p⟩ ⟨bv, p⟩ e =
            powLoopF f ⟨rv, p⟩ ⟨bv * bv % p, p⟩ (e / 2) := by
          simp [powLoopF, he0, h2, hmulbb]
        rw [hstep, ih rv (bv * bv % p) (e / 2) hrv hb2 hdiv, hpow2 rv, he2]
      · have h2 : e % 2 = 1 := Nat.odd_iff.mp hpar
        have he2 : 2 * (e / 2) + 1 = e := by omega
        have hmulrb : mulF ⟨rv, p⟩ ⟨bv, p⟩ = ⟨rv * bv % p, p⟩ :=
          mulF_small hp64 hrv hbv
        have hrb : rv * bv % p < p := Nat.mod_lt _ (by omega)
        have hstep : powLoopF (f + 1) ⟨rv, p⟩ ⟨bv, p⟩ e =
            powLoopF f ⟨rv * bv % p, p⟩ ⟨bv * bv % p, p⟩ (e / 2) := by
          simp [powLoopF, he0, h2, hmulbb, hmulrb]
        rw [hstep, ih (rv * bv % p) (bv * bv % p) (e / 2) hrb hb2 hdiv,
          hpow2 (rv * bv % p)]
        congr 1
        rw [Nat.mul_mod, Nat.mod_mod_of_dvd _ (dvd_refl p), ← Nat.mul_mod,
          mul_assoc, ← pow_succ', he2]

theorem powF_val {p v e : Nat} (hp : 1 < p) (hp64 : p ≤ 2 ^ 64) (hv : v < p)
    (he : e < 2 ^ 128) : powF ⟨v, p⟩ e = ⟨v ^ e % p, p⟩ := by
  rw [powF]
  have := powLoopF_val hp hp64 128 1 v e hp hv he
  simpa using this

theorem natCast_zmod_inj {p v w : Nat} (hp : 1 < p) (hv : v < p) (hw : w < p)
    (h : ((v : Nat) : ZMod p) = ((w : Nat) : ZMod p)) : v = w := by
  have hpne : p ≠ 0 := Nat.not_eq_zero_of_lt hp
  haveI : NeZero p := ⟨hpne⟩
  have := congrArg ZMod.val h
  rwa [ZMod.val_cast_of_lt hv, ZMod.val_cast_of_lt hw] at this

theorem powF_value_zmod {p v e : Nat} (hp : 1 < p) (hp64 : p ≤ 2 ^ 64) (hv : v < p)
    (he : e < 2 ^ 128) :
    (((powF ⟨v, p⟩ e).value : Nat) : ZMod p) = ((v : Nat) : ZMod p) ^ e := by
  rw [powF_val hp hp64 hv he]
  show (((v ^ e % p : Nat) : ZMod p)) = _
  rw [natCast_mod_self, Nat.cast_pow]

theorem powF_value_lt {p v e : Nat} (hp : 1 < p) (hp64 : p ≤ 2 ^ 64) (hv : v < p)
    (he : e < 2 ^ 128) : (powF ⟨v, p⟩ e).value < p := by
  rw [powF_val hp hp64 hv he]
  exact Nat.mod_lt _ (by omega)

theorem factorTwosF_spec :
    ∀ (fuel q s : Nat), q ≠ 0 → q < 2 ^ fuel →
      (factorTwosF fuel q s).1 % 2 = 1 ∧
      (factorTwosF fuel q s).1 * 2 ^ (factorTwosF fuel q s).2 = q * 2 ^ s ∧
      (factorTwosF fuel q s).1 ≠ 0 ∧ s ≤ (factorTwosF fuel q s).2 := by
  intro fuel
  induction fuel with
  | zero => intro q s hq hlt; omega
  | succ f ih =>
    intro q s hq hlt
    by_cases hev : q % 2 = 0
    · have hq2 : q / 2 ≠ 0 := by omega
      have hlt2 : q / 2 < 2 ^ f := by
        have : q < 2 ^ f * 2 := by simpa [pow_succ] using hlt
        omega
      have hstep : factorTwosF (f + 1) q s = factorTwosF f (q / 2) (s + 1) := by
        simp [factorTwosF, hev]
      obtain ⟨h1, h2, h3, h4⟩ := ih (q / 2) (s + 1) hq2 hlt2
      rw [hstep]
      refine ⟨h1, ?_, h3, by omega⟩
      rw [h2, pow_succ]
      have hq22 : 2 * (q / 2) = q := by omega
      calc q / 2 * (2 ^ s * 2) = 2 * (q / 2) * 2 ^ s := by ring
        _ = q * 2 ^ s := by rw [hq22]
    · have hstep : factorTwosF (f + 1) q s = (q, s) := by
        simp [factorTwosF, hev]
      rw [hstep]
      exact ⟨by omega, rfl, hq, le_refl s⟩

theorem zSearchF_spec {p : Nat} :
    ∀ (fuel z0 zw : Nat), z0 ≤ zw → zw < p →
      (powF ⟨zw, p⟩ ((p - 1) / 2)).value ≠ 1 → zw - z0 < fuel →
      ∃ zr, zSearchF p fuel z0 = Option.some zr ∧ z0 ≤ zr ∧ zr < p ∧
        (powF ⟨zr, p⟩ ((p - 1) / 2)).value ≠ 1 := by
  intro fuel
  induction fuel with
  | zero => intro z0 zw h1 h2 h3 h4; omega
  | succ f ih =>
    intro z0 zw h1 h2 h3 h4
    have hz0p : z0 < p := lt_of_le_of_lt h1 h2
    by_cases hcond : (powF ⟨z0, p⟩ ((p - 1) / 2)).value = 1
    · have hne : z0 ≠ zw := fun he => h3 (he ▸ hcond)
      have hstep : zSearchF p (f + 1) z0 = zSearchF p f (z0 + 1) := by
        simp [zSearchF, hz0p, hcond]
      obtain ⟨zr, hzr1, hzr2, hzr3, hzr4⟩ := ih (z0 + 1) zw (by omega) h2 h3 (by omega)
      exact ⟨zr, hstep ▸ hzr1, by omega, hzr3, hzr4⟩
    · refine ⟨z0, ?_, le_refl z0, hz0p, hcond⟩
      simp [zSearchF, hz0p, hcond]

theorem innerLoopF_finds {p : Nat} (hp : 1 < p) (hp64 : p ≤ 2 ^ 64)
    (T : ZMod p) (j0 : Nat)
    (hj0 : T ^ 2 ^ j0 = 1) (hmin : ∀ j, j < j0 → T ^ 2 ^ j ≠ 1) :
    ∀ (rem i : Nat) (tv : Nat), tv < p →
      ((tv : Nat) : ZMod p) = T ^ 2 ^ i →
      i ≤ j0 → j0 ≤ i + rem →
      innerLoopF rem ⟨tv, p⟩ i = j0 := by
  intro rem
  induction rem with
  | zero =>
    intro i tv hlt hcast hle hub
    have hij : i = j0 := by omega
    simp [innerLoopF, hij]
  | succ r ih =>
    intro i tv hlt hcast hle hub
    by_cases hone : tv = 1
    · have h1 : T ^ 2 ^ i = 1 := by rw [← hcast, hone, Nat.cast_one]
      have hge : j0 ≤ i := not_lt.mp (fun hlt2 => hmin i hlt2 h1)
      have hij : i = j0 := le_antisymm hle hge
      simp [innerLoopF, hone, hij]
    · have hTi : T ^ 2 ^ i ≠ 1 := by
        intro h1
        apply hone
        exact natCast_zmod_inj hp hlt hp (by rw [hcast, h1, Nat.cast_one])
      have hij : i < j0 := lt_of_le_of_ne hle (fun he => hTi (he ▸ hj0))
      have hstep : innerLoopF (r + 1) (⟨tv, p⟩ : FieldElement) i =
          innerLoopF r (mulF ⟨tv, p⟩ ⟨tv, p⟩) (i + 1) := by
        simp [innerLoopF, hone]
      rw [hstep, mulF_small hp64 hlt hlt]
      apply ih (i + 1) (tv * tv % p) (Nat.mod_lt _ (by omega)) ?_ (by omega) (by omega)
      rw [natCast_mod_self, Nat.cast_mul, hcast]
      rw [← pow_add]
      have hexp : 2 ^ i + 2 ^ i = 2 ^ (i + 1) := by
        rw [pow_succ]; omega
      rw [hexp]

theorem outerLoopF_terminates {p : Nat} [hFp : Fact (Nat.Prime p)]
    (hp64 : p ≤ 2 ^ 64) :
    ∀ (fuel m cv tv rv : Nat),
      cv < p → tv < p → rv < p →
      1 ≤ m → m ≤ 127 →
      ((cv : Nat) : ZMod p) ^ 2 ^ (m - 1) = -1 →
      ((tv : Nat) : ZMod p) ^ 2 ^ (m - 1) = 1 →
      m < fuel →
      ∃ res, outerLoopF fuel m ⟨cv, p⟩ ⟨tv, p⟩ ⟨rv, p⟩ = SqrtOut.found res := by
  have hp : 1 < p := hFp.out.one_lt
  intro fuel
  induction fuel with
  | zero => intro m cv tv rv _ _ _ _ _ _ _ hf; omega
  | succ f ih =>
    intro m cv tv rv hcv htv hrv hm1 hm127 hC hT hfuel
    by_cases hone : tv = 1
    · refine ⟨⟨rv, p⟩, ?_⟩
      simp [outerLoopF, hone]
    · set T : ZMod p := ((tv : Nat) : ZMod p) with hTdef
      have hTne : T ≠ 1 := by
        intro h1
        exact hone (natCast_zmod_inj hp htv hp (by rw [← hTdef, h1, Nat.cast_one]))
      have hex : ∃ j, T ^ 2 ^ j = 1 := ⟨m - 1, hT⟩
      set j0 : Nat := Nat.find hex with hj0def
      have hj0spec : T ^ 2 ^ j0 = 1 := Nat.find_spec hex
      have hj0min : ∀ j, j < j0 → T ^ 2 ^ j ≠ 1 := fun j hj => Nat.find_min hex hj
      have hj0le : j0 ≤ m - 1 := Nat.find_le hT
      have hj0pos : 1 ≤ j0 := by
        rcases Nat.eq_zero_or_pos j0 with h0 | hpos
        · exfalso
          apply hTne
          have := hj0spec
          rw [h0, pow_zero, pow_one] at this
          exact this
        · exact hpos
      have hi : innerLoopF m ⟨tv, p⟩ 0 = j0 :=
        innerLoopF_finds hp hp64 T j0 hj0spec hj0min m 0 tv htv
          (by rw [pow_zero, pow_one]) (by omega) (by omega)
      have hdexp : (m + 2 ^ 64 - (j0 + 1)) % 2 ^ 64 % 128 = m - j0 - 1 := by omega
      have hexplt : 2 ^ (m - j0 - 1) < 2 ^ 128 :=
        Nat.pow_lt_pow_right (by norm_num) (by omega)
      set b : FieldElement := powF ⟨cv, p⟩ (2 ^ (m - j0 - 1)) with hbdef
      have hbval : b = ⟨cv ^ 2 ^ (m - j0 - 1) % p, p⟩ := powF_val hp hp64 hcv hexplt
      have hblt : b.value < p := by rw [hbval]; exact Nat.mod_lt _ (by omega)
      have hbcast : ((b.value : Nat) : ZMod p) =
          ((cv : Nat) : ZMod p) ^ 2 ^ (m - j0 - 1) := by
        rw [hbval]
        show (((cv ^ 2 ^ (m - j0 - 1) % p : Nat) : ZMod p)) = _
        rw [natCast_mod_self, Nat.cast_pow]
      have hstep : outerLoopF (f + 1) m ⟨cv, p⟩ ⟨tv, p⟩ ⟨rv, p⟩ =
          outerLoopF f j0 (mulF b b) (mulF ⟨tv, p⟩ (mulF b b)) (mulF ⟨rv, p⟩ b) := by
        simp only [outerLoopF]
        rw [if_neg (by simpa using hone), hi, if_neg (by omega), hdexp]
      rw [hstep]
      obtain ⟨bv, hbv⟩ : ∃ bv, b = ⟨bv, p⟩ := ⟨_, hbval⟩
      have hblt2 : bv < p := by
        have := hblt; rw [hbv] at this; exact this
      have hc2 : mulF b b = ⟨bv * bv % p, p⟩ := by
        rw [hbv]; exact mulF_small hp64 hblt2 hblt2
      have hc2lt : bv * bv % p < p := Nat.mod_lt _ (by omega)
      have ht2 : mulF ⟨tv, p⟩ (mulF b b) = ⟨tv * (bv * bv % p) % p, p⟩ := by
        rw [hc2]; exact mulF_small hp64 htv hc2lt
      have hr2 : mulF ⟨rv, p⟩ b = ⟨rv * bv % p, p⟩ := by
        rw [hbv]; exact mulF_small hp64 hrv hblt2
      have hBcast : ((bv : Nat) : ZMod p) =
          ((cv : Nat) : ZMod p) ^ 2 ^ (m - j0 - 1) := by
        rw [← hbcast, hbv]
      have hCnew : (((bv * bv % p : Nat)) : ZMod p) ^ 2 ^ (j0 - 1) = -1 := by
        rw [natCast_mod_self, Nat.cast_mul, hBcast, ← pow_add, ← pow_mul]
        have hexp2 : (2 ^ (m - j0 - 1) + 2 ^ (m - j0 - 1)) * 2 ^ (j0 - 1) =
            2 ^ (m - 1) := by
          have hmj : m - j0 - 1 + 1 = m - j0 := by omega
          have h1 : 2 ^ (m - j0 - 1) + 2 ^ (m - j0 - 1) = 2 ^ (m - j0) := by
            have h1a : 2 ^ (m - j0 - 1) + 2 ^ (m - j0 - 1) =
                2 ^ (m - j0 - 1) * 2 := by ring
            rw [h1a, ← pow_succ, hmj]
          rw [h1, ← pow_add, show m - j0 + (j0 - 1) = m - 1 by omega]
        rw [hexp2, hC]
      have hTm1 : T ^ 2 ^ (j0 - 1) = -1 := by
        have hxne : T ^ 2 ^ (j0 - 1) ≠ 1 := hj0min (j0 - 1) (by omega)
        have hxsq : T ^ 2 ^ (j0 - 1) * T ^ 2 ^ (j0 - 1) = 1 := by
          have hjj : j0 - 1 + 1 = j0 := by omega
          have h2j : 2 ^ (j0 - 1) + 2 ^ (j0 - 1) = 2 ^ j0 := by
            have h2a : 2 ^ (j0 - 1) + 2 ^ (j0 - 1) = 2 ^ (j0 - 1) * 2 := by ring
            rw [h2a, ← pow_succ, hjj]
          rw [← pow_add, h2j]
          exact hj0spec
        rcases mul_self_eq_one_iff.mp hxsq with h | h
        · exact absurd h hxne
        · exact h
      have hTnew : (((tv * (bv * bv % p) % p : Nat)) : ZMod p) ^ 2 ^ (j0 - 1) = 1 := by
        rw [natCast_mod_self, Nat.cast_mul, mul_pow, ← hTdef, hTm1, hCnew]
        rw [neg_mul_neg, one_mul]
      obtain ⟨res, hres⟩ := ih j0 (bv * bv % p) (tv * (bv * bv % p) % p) (rv * bv % p)
        hc2lt (Nat.mod_lt _ (by omega)) (Nat.mod_lt _ (by omega))
        hj0pos (by omega) hCnew hTnew (by omega)
      refine ⟨res, ?_⟩
      rw [ht2, hc2, hr2]
      exact hres

/-- C10 amended: over every odd prime modulus p up to 2^64 (so that the
field multiplications inside pow are exact), sqrt terminates on every
element — returning a value or the None verdict within the stated fuel —
and the linear search for z terminates below p at a genuine quadratic
non-residue. -/
theorem c10_amended_sqrt_terminates :
    ∀ p : Nat, Nat.Prime p → Odd p → p ≤ 2 ^ 64 → ∀ a : Nat, a < p →
      ((∃ r, sqrtF (p + 130) ⟨a, p⟩ = SqrtOut.found r) ∨
        sqrtF (p + 130) ⟨a, p⟩ = SqrtOut.nores) ∧
      (∃ z, 2 ≤ z ∧ z < p ∧ zSearchF p (p + 130) 2 = Option.some z ∧
        ¬ IsSquare ((z : Nat) : ZMod p)) := by
  intro p hp hodd hp64 a hap
  haveI hFp : Fact (Nat.Prime p) := ⟨hp⟩
  haveI : NeZero p := ⟨hp.ne_zero⟩
  have hp1 : 1 < p := hp.one_lt
  have hpm2 : p % 2 = 1 := Nat.odd_iff.mp hodd
  have hp2 : p ≠ 2 := by omega
  have hp3 : 3 ≤ p := by omega
  have hdiv2 : p / 2 = (p - 1) / 2 := by omega
  have hhalf : (p - 1) / 2 + (p - 1) / 2 = p - 1 := by omega
  have hediv : (p - 1) / 2 < 2 ^ 128 := by
    have : p - 1 < 2 ^ 128 := by
      have h64 : (2 : Nat) ^ 64 < 2 ^ 128 := Nat.pow_lt_pow_right (by norm_num) (by norm_num)
      omega
    omega
  have hcast_ne1 : ∀ v : Nat, v < p → ((v : Nat) : ZMod p) = 1 → v = 1 := by
    intro v hv h
    exact natCast_zmod_inj hp1 hv hp1 (by rw [h, Nat.cast_one])
  have hcast_ne0 : ∀ v : Nat, 0 < v → v < p → ((v : Nat) : ZMod p) ≠ 0 := by
    intro v hv0 hv h
    have : v = 0 := natCast_zmod_inj hp1 hv (by omega) (by rw [h, Nat.cast_zero])
    omega
  -- the z search terminates at a genuine non-residue
  have hzpart : ∃ z, 2 ≤ z ∧ z < p ∧ zSearchF p (p + 130) 2 = Option.some z ∧
      ¬ IsSquare ((z : Nat) : ZMod p) := by
    have hchar : ringChar (ZMod p) ≠ 2 := by
      rw [ZMod.ringChar_zmod_n]; exact hp2
    obtain ⟨w, hw⟩ := FiniteField.exists_nonsquare (F := ZMod p) hchar
    have hwne0 : w ≠ 0 := fun h0 => hw (h0 ▸ ⟨0, by ring⟩)
    have hwne1 : w ≠ 1 := fun h1 => hw (h1 ▸ ⟨1, by ring⟩)
    have hwv : ((w.val : Nat) : ZMod p) = w := by
      rw [ZMod.natCast_val, ZMod.cast_id]
    have hwvlt : w.val < p := ZMod.val_lt w
    have hwv2 : 2 ≤ w.val := by
      by_contra hcon
      have h01 : w.val = 0 ∨ w.val = 1 := by omega
      rcases h01 with h0 | h1
      · exact hwne0 (by rw [← hwv, h0, Nat.cast_zero])
      · exact hwne1 (by rw [← hwv, h1, Nat.cast_one])
    have hwcond : (powF ⟨w.val, p⟩ ((p - 1) / 2)).value ≠ 1 := by
      intro h1
      apply hw
      rw [ZMod.euler_criterion p hwne0, hdiv2, ← hwv]
      have := powF_value_zmod hp1 hp64 hwvlt hediv
      rw [h1, Nat.cast_one] at this
      exact this.symm
    obtain ⟨z, hzs, hz2, hzp, hzcond⟩ :=
      zSearchF_spec (p + 130) 2 w.val hwv2 hwvlt hwcond (by omega)
    refine ⟨z, hz2, hzp, hzs, ?_⟩
    intro hzsq
    apply hzcond
    have hzne0 : ((z : Nat) : ZMod p) ≠ 0 := hcast_ne0 z (by omega) hzp
    have hpow1 : ((z : Nat) : ZMod p) ^ ((p - 1) / 2) = 1 := by
      rw [← hdiv2]
      exact (ZMod.euler_criterion p hzne0).mp hzsq
    have hv := powF_value_zmod hp1 hp64 hzp hediv
    rw [hpow1] at hv
    exact hcast_ne1 _ (powF_value_lt hp1 hp64 hzp hediv) hv
  refine ⟨?_, hzpart⟩
  by_cases ha0 : a = 0
  · left
    exact ⟨⟨a, p⟩, by simp [sqrtF, ha0]⟩
  by_cases heuler : (powF ⟨a, p⟩ ((p - 1) / 2)).value = 1
  case neg =>
    right
    simp only [sqrtF]
    rw [if_neg (by simpa using ha0), if_pos (by simpa using heuler)]
  case pos =>
  left
  have hA : ((a : Nat) : ZMod p) ^ ((p - 1) / 2) = 1 := by
    have hv := powF_value_zmod hp1 hp64 hap hediv
    rw [heuler, Nat.cast_one] at hv
    exact hv.symm
  have hAne0 : ((a : Nat) : ZMod p) ≠ 0 := hcast_ne0 a (by omega) hap
  obtain ⟨z, hz2, hzp, hzsome, hznsq⟩ := hzpart
  have hzcond : (powF ⟨z, p⟩ ((p - 1) / 2)).value ≠ 1 := by
    intro h1
    apply hznsq
    rw [ZMod.euler_criterion p (hcast_ne0 z (by omega) hzp), hdiv2]
    have hv := powF_value_zmod hp1 hp64 hzp hediv
    rw [h1, Nat.cast_one] at hv
    exact hv.symm
  rcases hqseq : factorTwosF 130 (p - 1) 0 with ⟨q, s⟩
  obtain ⟨hqodd, hqpow, hqne, _⟩ := factorTwosF_spec 130 (p - 1) 0 (by omega) (by
    have h64 : (2 : Nat) ^ 64 < 2 ^ 130 := Nat.pow_lt_pow_right (by norm_num) (by norm_num)
    omega)
  rw [hqseq] at hqodd hqpow hqne
  simp only at hqodd hqpow hqne
  rw [pow_zero, mul_one] at hqpow
  have hs1 : 1 ≤ s := by
    rcases Nat.eq_zero_or_pos s with h0 | h
    · rw [h0, pow_zero, mul_one] at hqpow; omega
    · exact h
  have hs127 : s ≤ 127 := by
    have hq1le : 1 ≤ q := by omega
    have h2s : 2 ^ s ≤ p - 1 := by
      calc 2 ^ s = 1 * 2 ^ s := (one_mul _).symm
      _ ≤ q * 2 ^ s := Nat.mul_le_mul_right _ hq1le
      _ = p - 1 := hqpow
    have h2slt : 2 ^ s < 2 ^ 128 := by
      have h64 : (2 : Nat) ^ 64 < 2 ^ 128 := Nat.pow_lt_pow_right (by norm_num) (by norm_num)
      omega
    have := (Nat.pow_lt_pow_iff_right (a := 2) (by norm_num)).mp h2slt
    omega
  have hqlt : q < 2 ^ 128 := by
    have h2s : 1 ≤ 2 ^ s := Nat.one_le_two_pow
    have hqle : q ≤ p - 1 := by
      calc q = q * 1 := (mul_one q).symm
      _ ≤ q * 2 ^ s := Nat.mul_le_mul_left _ h2s
      _ = p - 1 := hqpow
    have h64 : (2 : Nat) ^ 64 < 2 ^ 128 := Nat.pow_lt_pow_right (by norm_num) (by norm_num)
    omega
  have hq12 : (q + 1) / 2 < 2 ^ 128 := by omega
  have hqhalf : q * 2 ^ (s - 1) = (p - 1) / 2 := by
    have hss : s - 1 + 1 = s := by omega
    have h2 : q * 2 ^ (s - 1) * 2 = p - 1 := by
      rw [mul_assoc, ← pow_succ, hss]; exact hqpow
    omega
  -- entry invariants of the outer loop
  have hZne0 : ((z : Nat) : ZMod p) ≠ 0 := hcast_ne0 z (by omega) hzp
  have hZhalf : ((z : Nat) : ZMod p) ^ ((p - 1) / 2) = -1 := by
    have hxne : ((z : Nat) : ZMod p) ^ ((p - 1) / 2) ≠ 1 := by
      intro h1
      apply hzcond
      have hv := powF_value_zmod hp1 hp64 hzp hediv
      rw [h1] at hv
      exact hcast_ne1 _ (powF_value_lt hp1 hp64 hzp hediv) hv
    have hxsq : ((z : Nat) : ZMod p) ^ ((p - 1) / 2) *
        ((z : Nat) : ZMod p) ^ ((p - 1) / 2) = 1 := by
      rw [← pow_add, hhalf]
      exact ZMod.pow_card_sub_one_eq_one hZne0
    rcases mul_self_eq_one_iff.mp hxsq with h | h
    · exact absurd h hxne
    · exact h
  have hCinv : (((z ^ q % p : Nat)) : ZMod p) ^ 2 ^ (s - 1) = -1 := by
    rw [natCast_mod_self, Nat.cast_pow, ← pow_mul, hqhalf]
    exact hZhalf
  have hTinv : (((a ^ q % p : Nat)) : ZMod p) ^ 2 ^ (s - 1) = 1 := by
    rw [natCast_mod_self, Nat.cast_pow, ← pow_mul, hqhalf]
    exact hA
  obtain ⟨res, hres⟩ := outerLoopF_terminates hp64 (p + 130) s
    (z ^ q % p) (a ^ q % p) (a ^ ((q + 1) / 2) % p)
    (Nat.mod_lt _ (by omega)) (Nat.mod_lt _ (by omega)) (Nat.mod_lt _ (by omega))
    hs1 hs127 hCinv hTinv (by omega)
  refine ⟨res, ?_⟩
  simp only [sqrtF]
  rw [if_neg (by simpa using ha0), if_neg (by simpa using heuler), hqseq, hzsome]
  simp only
  rw [powF_val hp1 hp64 hzp hqlt, powF_val hp1 hp64 hap hqlt,
    powF_val hp1 hp64 hap hq12]
  exact hres

/-- C10 witness: the amended sqrt termination theorem instantiated at
the odd prime 13 and the element 4. -/
theorem c10_amended_witness :
    Nat.Prime 13 ∧ Odd 13 ∧ 13 ≤ 2 ^ 64 ∧ 4 < 13 ∧
    (((∃ r, sqrtF (13 + 130) ⟨4, 13⟩ = SqrtOut.found r) ∨
        sqrtF (13 + 130) ⟨4, 13⟩ = SqrtOut.nores) ∧
      (∃ z, 2 ≤ z ∧ z < 13 ∧ zSearchF 13 (13 + 130) 2 = Option.some z ∧
        ¬ IsSquare ((z : Nat) : ZMod 13))) :=
  ⟨by norm_num, by decide, by norm_num, by norm_num,
   c10_amended_sqrt_terminates 13 (by norm_num) (by decide) (by norm_num) 4
     (by norm_num)⟩

/-- C10 counterexample: the claim asserts that on every odd prime
modulus the linear search inside sqrt finds a quadratic non-residue
below p.  At the Lucas-certified odd prime PS = 3 * 2^66 + 1 and the
element 1, the Euler precheck passes (so sqrt runs the z search), the
search stops at z = 2 because the wrapped multiplications corrupt the
computed power, yet 2 is a quadratic residue modulo PS (witness
152491107813268071495); the claimed mechanism is therefore violated,
although this particular run still terminates. -/
theorem c10_wide_prime_z_search_picks_residue :
    Nat.Prime PS ∧ Odd PS ∧
    (powF ⟨1, PS⟩ ((PS - 1) / 2)).value = 1 ∧
    zSearchF PS 300 2 = Option.some 2 ∧
    IsSquare ((2 : Nat) : ZMod PS) ∧
    sqrtF 300 ⟨1, PS⟩ = SqrtOut.found ⟨1, PS⟩ := by
  refine ⟨PS_prime, Nat.odd_iff.mpr (by decide), by decide, by decide, ?_, by decide⟩
  refine ⟨((152491107813268071495 : Nat) : ZMod PS), ?_⟩
  have hmod : 152491107813268071495 * 152491107813268071495 % PS = 2 := by decide
  have hcast : ((152491107813268071495 * 152491107813268071495 % PS : Nat) : ZMod PS) =
      ((152491107813268071495 : Nat) : ZMod PS) *
        ((152491107813268071495 : Nat) : ZMod PS) := by
    rw [natCast_mod_self, Nat.cast_mul]
  rw [← hcast, hmod]

/-- C7 witness: the amended inverse laws instantiated at the prime 17
and the element 5. -/
theorem c7_amended_witness :
    Nat.Prime 17 ∧ 17 ≤ 2 ^ 64 ∧ 0 < 5 ∧ 5 < 17 ∧
    (∃ b : Nat, inverseF ⟨5, 17⟩ = Except.ok ⟨b, 17⟩ ∧
      mulF ⟨5, 17⟩ ⟨b, 17⟩ = ⟨1, 17⟩ ∧ FieldElement.one 17 = Except.ok ⟨1, 17⟩ ∧
      inverseF ⟨b, 17⟩ = Except.ok ⟨5, 17⟩) :=
  ⟨by norm_num, by norm_num, by norm_num, by norm_num,
   c7_amended_inverse_laws.1 17 5 (by norm_num) (by norm_num) (by norm_num)
     (by norm_num)⟩

end Khatam
